import Mathlib

/-!
Verification of the batch orchestration engine of the packshot-compositing
server (src/server.js) against its natural-language specification.

The JavaScript source is shallowly embedded: number arithmetic of the source
(IEEE doubles) is idealized as exact arithmetic over ℚ/ℝ, fallible operations
return Except/Option, and the asynchronous dispatcher is modelled as a
small-step transition system whose atomic steps are the synchronous segments
of the source between await points (the only points where a status query can
observe the session state).
-/

namespace Packshot

/-! ## Configuration constants (src/server.js:35-38, 348, 397) -/

/-- CONCURRENCY_LIMIT (src/server.js:35): parallel API calls. -/
def CONCURRENCY_LIMIT : ℕ := 3

/-- CHUNK_SIZE (src/server.js:36): images per memory chunk. -/
def CHUNK_SIZE : ℕ := 10

/-- MAX_RETRIES (src/server.js:37). -/
def MAX_RETRIES : ℕ := 3

/-- RETRY_BASE_DELAY in milliseconds (src/server.js:38). -/
def RETRY_BASE_DELAY : ℕ := 2000

/-- MAX_MEGAPIXELS (src/server.js:348): the remote API pixel limit. -/
def MAX_MEGAPIXELS : ℕ := 5000000

/-- The safety-margin budget MAX_MEGAPIXELS * 0.9 of loadBackgroundBuffer
(src/server.js:397); 5000000 * 0.9 is exactly 4500000. -/
def SAFE_MAX_PIXELS : ℕ := 4500000

/-! ## DimensionFitter: downscaleImageToLimit (src/server.js:350-393)

The function receives the native size (width, height) read from the image
metadata, an optional bounding box (maxWidth, maxHeight) and a pixel budget
maxPixels, and computes scale = min(dimensionScale, pixelScale).  If
scale >= 1 it returns the original bytes unchanged; otherwise it floors
width*scale and height*scale.  Dimensions and the budget are naturals; the
JS float arithmetic is idealized as exact real arithmetic. -/

/-- JS truthiness of an optional numeric function argument
(the `maxWidth && maxHeight` test on src/server.js:357): a missing
argument and 0 are falsy. -/
def jsTruthy (o : Option ℕ) : Bool := o.getD 0 ≠ 0

/-- dimensionScale (src/server.js:356-363): 1 unless both box bounds are
truthy and the image exceeds the box, in which case
min(maxWidth/width, maxHeight/height).  Exact rational value. -/
def dimensionScale (width height : ℕ) (maxWidth maxHeight : Option ℕ) : ℚ :=
  if jsTruthy maxWidth ∧ jsTruthy maxHeight then
    if maxWidth.getD 0 < width ∨ maxHeight.getD 0 < height then
      min ((maxWidth.getD 0 : ℚ) / width) ((maxHeight.getD 0 : ℚ) / height)
    else 1
  else 1

/-- Observable result of downscaleImageToLimit: whether the image was
re-encoded, and the dimensions of the returned image.  `reencoded = false`
means the original bytes are returned unchanged (src/server.js:375-378),
in which case the dimensions are the native ones. -/
structure FitResult where
  reencoded : Bool
  width : ℕ
  height : ℕ
deriving Repr, DecidableEq

/-- Embedding of downscaleImageToLimit (src/server.js:350-393) at the level
of dimensions, with `scale = min(dimensionScale, pixelScale)` where
`pixelScale = sqrt(maxPixels/(width*height))` when the pixel count exceeds
the budget and 1 otherwise.  The three branches below are exactly the cases
of the source evaluated in exact arithmetic:

* `scale >= 1` (src/server.js:375) holds iff the pixel count is within the
  budget and the box is not exceeded;
* otherwise, if `dimensionScale <= pixelScale` — equivalently
  `dimensionScale^2 * (width*height) <= maxPixels` — the scale is the
  rational `dimensionScale` and the new dimensions are the floors of
  `width*dimensionScale` and `height*dimensionScale`;
* otherwise the scale is `sqrt(maxPixels/(width*height))` and
  `floor (width * sqrt (maxPixels/(width*height)))
     = floor (sqrt (width^2*maxPixels/(width*height)))
     = Nat.sqrt (width*width*maxPixels / (width*height))`
  with integer division, and similarly for the height.

The theorem `downscaleImageToLimit_eq_js` below certifies each branch
against the literal real-number formula of the source. -/
def downscaleImageToLimit (width height : ℕ) (maxWidth maxHeight : Option ℕ)
    (maxPixels : ℕ) : FitResult :=
  let d := dimensionScale width height maxWidth maxHeight
  if width * height ≤ maxPixels ∧ 1 ≤ d then
    ⟨false, width, height⟩
  else if d * d * (width * height) ≤ (maxPixels : ℚ) then
    ⟨true, ⌊(width : ℚ) * d⌋₊, ⌊(height : ℚ) * d⌋₊⟩
  else
    ⟨true, Nat.sqrt (width * width * maxPixels / (width * height)),
           Nat.sqrt (height * height * maxPixels / (width * height))⟩

lemma dimensionScale_nonneg (w h : ℕ) (mw mh : Option ℕ) :
    0 ≤ dimensionScale w h mw mh := by
  unfold dimensionScale
  split
  · split
    · exact le_min (by positivity) (by positivity)
    · norm_num
  · norm_num

lemma dimensionScale_le_one (w h : ℕ) (mw mh : Option ℕ) :
    dimensionScale w h mw mh ≤ 1 := by
  unfold dimensionScale
  split
  · split
    · rename_i hcond
      rcases hcond with hlt | hlt
      · refine le_trans (min_le_left _ _) ?_
        rw [div_le_one (by exact_mod_cast Nat.lt_of_le_of_lt (Nat.zero_le _) hlt)]
        exact_mod_cast hlt.le
      · refine le_trans (min_le_right _ _) ?_
        rw [div_le_one (by exact_mod_cast Nat.lt_of_le_of_lt (Nat.zero_le _) hlt)]
        exact_mod_cast hlt.le
    · norm_num
  · norm_num

/-- The natural floor of a real square root is the integer square root of the
natural floor. -/
lemma natFloor_sqrt_eq (x : ℝ) (hx : 0 ≤ x) : ⌊Real.sqrt x⌋₊ = Nat.sqrt ⌊x⌋₊ := by
  refine le_antisymm ?_ ?_
  · rw [Nat.le_sqrt]
    refine Nat.le_floor ?_
    have h1 : (⌊Real.sqrt x⌋₊ : ℝ) ≤ Real.sqrt x := Nat.floor_le (Real.sqrt_nonneg x)
    have h2 : (⌊Real.sqrt x⌋₊ : ℝ) * ⌊Real.sqrt x⌋₊ ≤ Real.sqrt x * Real.sqrt x :=
      mul_le_mul h1 h1 (by positivity) (Real.sqrt_nonneg x)
    rw [Real.mul_self_sqrt hx] at h2
    exact_mod_cast h2
  · refine Nat.le_floor ?_
    rw [Real.le_sqrt (by positivity) hx]
    calc ((Nat.sqrt ⌊x⌋₊ : ℕ) : ℝ) ^ 2 = ((Nat.sqrt ⌊x⌋₊ * Nat.sqrt ⌊x⌋₊ : ℕ) : ℝ) := by
          push_cast; ring
      _ ≤ (⌊x⌋₊ : ℝ) := by exact_mod_cast Nat.sqrt_le ⌊x⌋₊
      _ ≤ x := Nat.floor_le hx

/-- The natural floor of a rational is unchanged by the cast to ℝ. -/
lemma natFloor_ratCast (x : ℚ) : ⌊(x : ℝ)⌋₊ = ⌊x⌋₊ := by
  rw [← Int.floor_toNat, ← Int.floor_toNat, Rat.floor_cast]

/-- Each branch of `downscaleImageToLimit` computes exactly the real-number
formula of src/server.js:350-381: with
`scale = min (dimensionScale, pixelScale)` and
`pixelScale = if currentPixels > maxPixels then sqrt (maxPixels/currentPixels) else 1`,
the original dimensions are kept (and the original bytes returned, field
`reencoded = false`) iff `1 ≤ scale`, and otherwise the result is
`(⌊width*scale⌋, ⌊height*scale⌋)`. -/
theorem downscaleImageToLimit_eq_js (w h : ℕ) (mw mh : Option ℕ) (P : ℕ)
    (hw : 0 < w) (hh : 0 < h) :
    downscaleImageToLimit w h mw mh P =
      if 1 ≤ min ((dimensionScale w h mw mh : ℝ))
          (if (P : ℝ) < w * h then Real.sqrt ((P : ℝ) / (w * h)) else 1) then
        ⟨false, w, h⟩
      else
        ⟨true,
         ⌊(w : ℝ) * min ((dimensionScale w h mw mh : ℝ))
             (if (P : ℝ) < w * h then Real.sqrt ((P : ℝ) / (w * h)) else 1)⌋₊,
         ⌊(h : ℝ) * min ((dimensionScale w h mw mh : ℝ))
             (if (P : ℝ) < w * h then Real.sqrt ((P : ℝ) / (w * h)) else 1)⌋₊⟩ := by
  have hd0 : (0 : ℚ) ≤ dimensionScale w h mw mh := dimensionScale_nonneg w h mw mh
  have hd1 : dimensionScale w h mw mh ≤ 1 := dimensionScale_le_one w h mw mh
  have hwh : (0 : ℝ) < (w : ℝ) * h := by positivity
  have hcast : ((w * h : ℕ) : ℝ) = (w : ℝ) * h := by push_cast; ring
  set d : ℚ := dimensionScale w h mw mh with hd
  by_cases hP : w * h ≤ P
  · -- within the pixel budget: pixelScale = 1
    have hnotlt : ¬ ((P : ℝ) < (w : ℝ) * h) := by
      rw [← hcast]; exact_mod_cast not_lt.mpr hP
    rw [if_neg hnotlt] at *
    by_cases hd1' : (1 : ℚ) ≤ d
    · have : (1 : ℝ) ≤ min ((d : ℝ)) 1 := by
        refine le_min ?_ le_rfl
        exact_mod_cast hd1'
      rw [downscaleImageToLimit, if_pos ⟨hP, hd1'⟩, if_pos this]
    · have hmin : min ((d : ℝ)) 1 = (d : ℝ) := min_eq_left (by exact_mod_cast hd1)
      have hnot1 : ¬ (1 : ℝ) ≤ min ((d : ℝ)) 1 := by
        rw [hmin]
        exact_mod_cast hd1'
      have hbr2 : d * d * ((w : ℚ) * h) ≤ (P : ℚ) := by
        have hdd : d * d ≤ 1 := mul_le_one₀ hd1 hd0 hd1
        calc d * d * ((w : ℚ) * h) ≤ 1 * ((w : ℚ) * h) := by
              refine mul_le_mul_of_nonneg_right hdd (by positivity)
          _ = ((w * h : ℕ) : ℚ) := by push_cast; ring
          _ ≤ (P : ℚ) := by exact_mod_cast hP
      rw [downscaleImageToLimit, if_neg (by tauto), if_pos hbr2,
        if_neg hnot1, hmin]
      have e1 : ⌊(w : ℝ) * (d : ℝ)⌋₊ = ⌊(w : ℚ) * d⌋₊ := by
        rw [show (w : ℝ) * (d : ℝ) = (((w : ℚ) * d : ℚ) : ℝ) by push_cast; ring,
          natFloor_ratCast]
      have e2 : ⌊(h : ℝ) * (d : ℝ)⌋₊ = ⌊(h : ℚ) * d⌋₊ := by
        rw [show (h : ℝ) * (d : ℝ) = (((h : ℚ) * d : ℚ) : ℝ) by push_cast; ring,
          natFloor_ratCast]
      rw [e1, e2]
  · -- over the pixel budget: pixelScale = sqrt (P / (w*h)) < 1
    push_neg at hP
    have hlt : (P : ℝ) < (w : ℝ) * h := by rw [← hcast]; exact_mod_cast hP
    rw [if_pos hlt] at *
    have hsq0 : (0 : ℝ) ≤ Real.sqrt ((P : ℝ) / ((w : ℝ) * h)) := Real.sqrt_nonneg _
    have hsq1 : Real.sqrt ((P : ℝ) / ((w : ℝ) * h)) < 1 := by
      rw [Real.sqrt_lt' one_pos, one_pow, div_lt_one hwh]
      exact hlt
    have hnot1 : ¬ (1 : ℝ) ≤ min ((d : ℝ)) (Real.sqrt ((P : ℝ) / ((w : ℝ) * h))) := by
      push_neg
      exact lt_of_le_of_lt (min_le_right _ _) hsq1
    have hbr1 : ¬ (w * h ≤ P ∧ 1 ≤ d) := by
      rintro ⟨h1, _⟩; exact absurd h1 (not_le.mpr hP)
    by_cases h2 : d * d * ((w : ℚ) * h) ≤ (P : ℚ)
    · -- dimensionScale is the binding constraint
      have hdle : (d : ℝ) ≤ Real.sqrt ((P : ℝ) / ((w : ℝ) * h)) := by
        rw [Real.le_sqrt (by exact_mod_cast hd0) (by positivity)]
        rw [le_div_iff₀ hwh, sq]
        exact_mod_cast h2
      have hmin : min ((d : ℝ)) (Real.sqrt ((P : ℝ) / ((w : ℝ) * h))) = (d : ℝ) :=
        min_eq_left hdle
      rw [downscaleImageToLimit, if_neg hbr1, if_pos h2,
        if_neg hnot1, hmin]
      have e1 : ⌊(w : ℝ) * (d : ℝ)⌋₊ = ⌊(w : ℚ) * d⌋₊ := by
        rw [show (w : ℝ) * (d : ℝ) = (((w : ℚ) * d : ℚ) : ℝ) by push_cast; ring,
          natFloor_ratCast]
      have e2 : ⌊(h : ℝ) * (d : ℝ)⌋₊ = ⌊(h : ℚ) * d⌋₊ := by
        rw [show (h : ℝ) * (d : ℝ) = (((h : ℚ) * d : ℚ) : ℝ) by push_cast; ring,
          natFloor_ratCast]
      rw [e1, e2]
    · -- pixelScale is the binding constraint
      push_neg at h2
      have hsle : Real.sqrt ((P : ℝ) / ((w : ℝ) * h)) ≤ (d : ℝ) := by
        rw [show ((d : ℝ)) = Real.sqrt ((d : ℝ) ^ 2) from
          (Real.sqrt_sq (by exact_mod_cast hd0)).symm]
        refine Real.sqrt_le_sqrt ?_
        rw [div_le_iff₀ hwh, sq]
        exact_mod_cast h2.le
      have hmin : min ((d : ℝ)) (Real.sqrt ((P : ℝ) / ((w : ℝ) * h))) =
          Real.sqrt ((P : ℝ) / ((w : ℝ) * h)) := min_eq_right hsle
      rw [downscaleImageToLimit, if_neg hbr1, if_neg (not_le.mpr h2),
        if_neg hnot1, hmin]
      have key : ∀ a : ℕ, 0 < a →
          ⌊(a : ℝ) * Real.sqrt ((P : ℝ) / ((w : ℝ) * h))⌋₊ =
            Nat.sqrt (a * a * P / (w * h)) := by
        intro a ha
        have e1 : (a : ℝ) * Real.sqrt ((P : ℝ) / ((w : ℝ) * h)) =
            Real.sqrt (((a * a * P : ℕ) : ℝ) / ((w * h : ℕ) : ℝ)) := by
          rw [show ((a * a * P : ℕ) : ℝ) / ((w * h : ℕ) : ℝ) =
              ((a : ℝ)) ^ 2 * ((P : ℝ) / ((w : ℝ) * h)) by
            push_cast; rw [sq, ← mul_div_assoc]]
          rw [Real.sqrt_mul (by positivity), Real.sqrt_sq (by positivity)]
        rw [e1, natFloor_sqrt_eq _ (by positivity), Nat.floor_div_nat, Nat.floor_natCast]
      rw [key w hw, key h hh]

/-- C1: for every input (width, height), every optional bounding box
(maxW, maxH) and every pixel budget maxPixels, the dimensions computed by
`downscaleImageToLimit` preserve the aspect ratio within floor-rounding
(both dimensions are floors of the native ones multiplied by one common
scale), satisfy output width ≤ input width and output height ≤ input
height (the scale is capped at 1.0 — only downscale, never upscale), and
satisfy output width * output height ≤ maxPixels (so in particular within
the floor-rounding slack of at most one pixel per dimension that the claim
allows). -/
theorem downscale_dims_correct (w h : ℕ) (mw mh : Option ℕ) (P : ℕ)
    (hw : 0 < w) (hh : 0 < h) :
    (downscaleImageToLimit w h mw mh P).width ≤ w ∧
    (downscaleImageToLimit w h mw mh P).height ≤ h ∧
    (downscaleImageToLimit w h mw mh P).width *
      (downscaleImageToLimit w h mw mh P).height ≤ P ∧
    ∃ s : ℝ, 0 ≤ s ∧ s ≤ 1 ∧
      (downscaleImageToLimit w h mw mh P).width = ⌊(w : ℝ) * s⌋₊ ∧
      (downscaleImageToLimit w h mw mh P).height = ⌊(h : ℝ) * s⌋₊ := by
  have hd0 : (0 : ℚ) ≤ dimensionScale w h mw mh := dimensionScale_nonneg w h mw mh
  have hwh : (0 : ℝ) < (w : ℝ) * h := by positivity
  rw [downscaleImageToLimit_eq_js w h mw mh P hw hh]
  set pix : ℝ := if (P : ℝ) < w * h then Real.sqrt ((P : ℝ) / (w * h)) else 1 with hpix
  set scale : ℝ := min ((dimensionScale w h mw mh : ℝ)) pix with hscale
  have hpix0 : 0 ≤ pix := by
    rw [hpix]; split
    · exact Real.sqrt_nonneg _
    · norm_num
  have hs0 : 0 ≤ scale := le_min (by exact_mod_cast hd0) hpix0
  have hsqP : scale * scale * ((w : ℝ) * h) ≤ P ∨
      (scale ≤ 1 ∧ (w : ℝ) * h ≤ P) := by
    by_cases hlt : (P : ℝ) < (w : ℝ) * h
    · left
      have hpixval : pix = Real.sqrt ((P : ℝ) / ((w : ℝ) * h)) := by rw [hpix, if_pos hlt]
      have h1 : scale ≤ Real.sqrt ((P : ℝ) / ((w : ℝ) * h)) := by
        rw [hscale, hpixval]; exact min_le_right _ _
      have h2 : scale * scale ≤ (P : ℝ) / ((w : ℝ) * h) :=
        calc scale * scale
            ≤ Real.sqrt ((P : ℝ) / ((w : ℝ) * h)) * Real.sqrt ((P : ℝ) / ((w : ℝ) * h)) :=
              mul_le_mul h1 h1 hs0 (Real.sqrt_nonneg _)
          _ = (P : ℝ) / ((w : ℝ) * h) := Real.mul_self_sqrt (by positivity)
      calc scale * scale * ((w : ℝ) * h) ≤ ((P : ℝ) / ((w : ℝ) * h)) * ((w : ℝ) * h) :=
            mul_le_mul_of_nonneg_right h2 hwh.le
        _ = (P : ℝ) := div_mul_cancel₀ _ (ne_of_gt hwh)
    · right
      have hpixval : pix = 1 := by rw [hpix, if_neg hlt]
      exact ⟨le_trans (min_le_right _ _) (le_of_eq hpixval), not_lt.mp hlt⟩
  by_cases h1 : 1 ≤ scale
  · rw [if_pos h1]
    have hwhP : w * h ≤ P := by
      have : (w : ℝ) * h ≤ P := by
        rcases hsqP with hc | ⟨_, hc2⟩
        · nlinarith [mul_le_mul h1 h1 zero_le_one hs0]
        · exact hc2
      exact_mod_cast (by push_cast; exact this : ((w * h : ℕ) : ℝ) ≤ (P : ℕ))
    refine ⟨le_rfl, le_rfl, hwhP, 1, by norm_num, le_rfl, ?_, ?_⟩
    · rw [mul_one, Nat.floor_natCast]
    · rw [mul_one, Nat.floor_natCast]
  · rw [if_neg h1]
    have hs1 : scale ≤ 1 := (not_le.mp h1).le
    have hfw : ⌊(w : ℝ) * scale⌋₊ ≤ w := by
      refine le_trans (Nat.floor_mono ?_) (le_of_eq (Nat.floor_natCast w))
      nlinarith
    have hfh : ⌊(h : ℝ) * scale⌋₊ ≤ h := by
      refine le_trans (Nat.floor_mono ?_) (le_of_eq (Nat.floor_natCast h))
      nlinarith
    have hprod : ⌊(w : ℝ) * scale⌋₊ * ⌊(h : ℝ) * scale⌋₊ ≤ P := by
      have hb : scale * scale * ((w : ℝ) * h) ≤ P := by
        rcases hsqP with hc | ⟨_, hc2⟩
        · exact hc
        · have hss : scale * scale ≤ 1 := by nlinarith
          nlinarith [mul_le_mul_of_nonneg_right hss hwh.le]
      have hcw : (⌊(w : ℝ) * scale⌋₊ : ℝ) ≤ (w : ℝ) * scale := Nat.floor_le (by positivity)
      have hch : (⌊(h : ℝ) * scale⌋₊ : ℝ) ≤ (h : ℝ) * scale := Nat.floor_le (by positivity)
      have : ((⌊(w : ℝ) * scale⌋₊ * ⌊(h : ℝ) * scale⌋₊ : ℕ) : ℝ) ≤ (P : ℝ) := by
        push_cast
        nlinarith
      exact_mod_cast this
    exact ⟨hfw, hfh, hprod, scale, hs0, hs1, rfl, rfl⟩

/-- Witness for C1 at the concrete input of the specification example:
a 4000×3000 (12 MP) image, no bounding box, budget 4500000 pixels. -/
theorem downscale_dims_correct_witness :
    (0 : ℕ) < 4000 ∧ (0 : ℕ) < 3000 ∧
    ((downscaleImageToLimit 4000 3000 none none 4500000).width ≤ 4000 ∧
     (downscaleImageToLimit 4000 3000 none none 4500000).height ≤ 3000 ∧
     (downscaleImageToLimit 4000 3000 none none 4500000).width *
       (downscaleImageToLimit 4000 3000 none none 4500000).height ≤ 4500000 ∧
     ∃ s : ℝ, 0 ≤ s ∧ s ≤ 1 ∧
       (downscaleImageToLimit 4000 3000 none none 4500000).width = ⌊(4000 : ℝ) * s⌋₊ ∧
       (downscaleImageToLimit 4000 3000 none none 4500000).height = ⌊(3000 : ℝ) * s⌋₊) :=
  ⟨by norm_num, by norm_num,
   by
    have := downscale_dims_correct 4000 3000 none none 4500000 (by norm_num) (by norm_num)
    exact_mod_cast this⟩

/-- C8: for every image whose computed scale equals 1 — it already fits the
bounding box (dimensionScale is 1) and the pixel budget (pixelScale is 1) —
`downscaleImageToLimit` returns the original bytes unchanged
(`reencoded = false`), skipping the re-encode: an identity on the image
content and its dimensions. -/
theorem downscale_identity_of_scale_one (w h : ℕ) (mw mh : Option ℕ) (P : ℕ)
    (hw : 0 < w) (hh : 0 < h)
    (hscale : min ((dimensionScale w h mw mh : ℝ))
        (if (P : ℝ) < w * h then Real.sqrt ((P : ℝ) / (w * h)) else 1) = 1) :
    downscaleImageToLimit w h mw mh P = ⟨false, w, h⟩ := by
  rw [downscaleImageToLimit_eq_js w h mw mh P hw hh, hscale, if_pos le_rfl]

/-- Witness for C8 at the concrete input of the specification example:
a native 800×600 (0.48 MP) image against the 4.5 MP budget. -/
theorem downscale_identity_of_scale_one_witness :
    downscaleImageToLimit 800 600 none none 4500000 = ⟨false, 800, 600⟩ :=
  downscale_identity_of_scale_one 800 600 none none 4500000 (by norm_num) (by norm_num)
    (by norm_num [dimensionScale, jsTruthy])

/-! ## RetryExecutor: isRetryableError and withRetry (src/server.js:106-141)

The wrapped remote call is modelled as `fn : ℕ → Except JsError α`, giving
the outcome of the k-th invocation of `fn` in one `withRetry` call.  The
loop is instrumented with the full observable trace: the returned or thrown
result, the list of backoff sleeps performed (in ms, in order), and the
number of invocations of `fn`. -/

/-- An error as inspected by `isRetryableError`: `response = none` models a
network error or timeout (the axios error has no `response` field);
`response = some s` models an HTTP response with status `s`.  `message`
carries the identity of the error so that propagating it "unchanged" is
expressible. -/
structure JsError where
  response : Option ℕ
  message : String
deriving Repr, DecidableEq

/-- Embedding of isRetryableError (src/server.js:111-119): retry on network
errors or timeouts (no response), rate limits (429) and server errors
(status ≥ 500). -/
def isRetryableError (e : JsError) : Bool :=
  match e.response with
  | none => true
  | some status => status == 429 || 500 ≤ status

/-- Observable trace of one `withRetry` call: the result returned (`.ok`) or
thrown (`.error`), the backoff sleeps performed in order (ms), and how many
times `fn` was invoked. -/
structure RetryTrace (α : Type) where
  result : Except JsError α
  delays : List ℕ
  attemptsMade : ℕ
deriving Repr

/-- The `for` loop of withRetry (src/server.js:124-138), invoking `fn` at
the current `attempt` number.  `rest` counts the loop iterations still
allowed after the current one, i.e. `maxRetries - attempt`; the test
`attempt === maxRetries` of src/server.js:130 is `rest = 0`.  On a failure
that is non-retryable or on the last attempt the error is rethrown
unchanged; otherwise the loop sleeps `2 ^ attempt * baseDelay`
(src/server.js:134) and retries at `attempt + 1`. -/
def retryLoop (fn : ℕ → Except JsError α) (baseDelay : ℕ) :
    (attempt rest : ℕ) → RetryTrace α
  | attempt, 0 =>
    match fn attempt with
    | .ok v => ⟨.ok v, [], 1⟩
    | .error e => ⟨.error e, [], 1⟩
  | attempt, rest + 1 =>
    match fn attempt with
    | .ok v => ⟨.ok v, [], 1⟩
    | .error e =>
      if isRetryableError e then
        let t := retryLoop fn baseDelay (attempt + 1) rest
        ⟨t.result, 2 ^ attempt * baseDelay :: t.delays, t.attemptsMade + 1⟩
      else ⟨.error e, [], 1⟩

/-- Embedding of withRetry (src/server.js:121-141): every call starts its
own loop at attempt 1 with a fresh attempt counter, allowing
`maxRetries - 1` further iterations. -/
def withRetry (fn : ℕ → Except JsError α) (baseDelay maxRetries : ℕ) : RetryTrace α :=
  retryLoop fn baseDelay 1 (maxRetries - 1)

/-- If the first `n` attempts starting at `attempt` fail retryably, attempts
remain, and attempt `attempt + n` succeeds, the loop returns the success,
sleeping `2 ^ k * baseDelay` after the failed attempt `k`. -/
lemma retryLoop_ok_after_failures (fn : ℕ → Except JsError α) (base : ℕ) (v : α) :
    ∀ (n attempt rest : ℕ), n ≤ rest →
    (∀ k, k < n → ∃ e, fn (attempt + k) = .error e ∧ isRetryableError e = true) →
    fn (attempt + n) = .ok v →
    retryLoop fn base attempt rest =
      ⟨.ok v, (List.range n).map (fun k => 2 ^ (attempt + k) * base), n + 1⟩ := by
  intro n
  induction n with
  | zero =>
    intro attempt rest _ _ hok
    rw [show attempt + 0 = attempt by ring] at hok
    cases rest <;> rw [retryLoop, hok] <;> simp
  | succ n ih =>
    intro attempt rest hle hfail hok
    obtain ⟨rest', hrest⟩ : ∃ rest', rest = rest' + 1 :=
      ⟨rest - 1, by omega⟩
    obtain ⟨e, he, hre⟩ := hfail 0 (Nat.succ_pos n)
    rw [show attempt + 0 = attempt by ring] at he
    subst hrest
    have ihx := ih (attempt + 1) rest' (by omega)
      (fun k hk => by
        obtain ⟨e', he', hre'⟩ := hfail (k + 1) (by omega)
        exact ⟨e', by rw [show attempt + 1 + k = attempt + (k + 1) by ring]; exact he', hre'⟩)
      (by rw [show attempt + 1 + n = attempt + (n + 1) by ring]; exact hok)
    rw [retryLoop, he]
    simp only [hre, if_true, ihx]
    simp only [RetryTrace.mk.injEq, true_and, and_true]
    rw [List.range_succ_eq_map, List.map_cons, List.map_map]
    refine congrArg₂ List.cons (by ring_nf) ?_
    refine List.map_congr_left ?_
    intro k _
    simp only [Function.comp_apply]
    rw [show attempt + 1 + k = attempt + (k + 1) by omega]

/-- If every attempt up to the budget fails, the first `rest` failures being
retryable, the loop rethrows the error of the final attempt unchanged. -/
lemma retryLoop_all_failures (fn : ℕ → Except JsError α) (base : ℕ) (efinal : JsError) :
    ∀ (rest attempt : ℕ),
    (∀ k, k < rest → ∃ e, fn (attempt + k) = .error e ∧ isRetryableError e = true) →
    fn (attempt + rest) = .error efinal →
    retryLoop fn base attempt rest =
      ⟨.error efinal, (List.range rest).map (fun k => 2 ^ (attempt + k) * base),
       rest + 1⟩ := by
  intro rest
  induction rest with
  | zero =>
    intro attempt _ hfin
    rw [show attempt + 0 = attempt by ring] at hfin
    rw [retryLoop, hfin]
    simp
  | succ n ih =>
    intro attempt hfail hfin
    obtain ⟨e, he, hre⟩ := hfail 0 (Nat.succ_pos n)
    rw [show attempt + 0 = attempt by ring] at he
    have ihx := ih (attempt + 1)
      (fun k hk => by
        obtain ⟨e', he', hre'⟩ := hfail (k + 1) (by omega)
        exact ⟨e', by rw [show attempt + 1 + k = attempt + (k + 1) by ring]; exact he', hre'⟩)
      (by rw [show attempt + 1 + n = attempt + (n + 1) by ring]; exact hfin)
    rw [retryLoop, he]
    simp only [hre, if_true, ihx]
    simp only [RetryTrace.mk.injEq, true_and, and_true]
    rw [List.range_succ_eq_map, List.map_cons, List.map_map]
    refine congrArg₂ List.cons (by ring_nf) ?_
    refine List.map_congr_left ?_
    intro k _
    simp only [Function.comp_apply]
    rw [show attempt + 1 + k = attempt + (k + 1) by omega]

/-- A remote call that fails with a simulated rate limit (HTTP 429) on
attempts 1 and 2 and succeeds on attempt 3 (the scenario of the
specification's testable property for the retry executor). -/
def simulatedRateLimit : ℕ → Except JsError ℕ :=
  fun attempt =>
    if attempt ≤ 2 then .error ⟨some 429, "Too Many Requests"⟩ else .ok 0

/-- Counterexample to C2 as stated: with the configured base delay of
2000 ms and two retryable failures, the sleeps performed are 4000 ms and
8000 ms — that is, 2 times and 4 times the base delay — and not the
4 times and 8 times the base delay (8000 ms and 16000 ms) that the claim
asserts for the 2nd and 3rd attempts. -/
theorem withRetry_claimed_delays_false :
    (withRetry simulatedRateLimit RETRY_BASE_DELAY MAX_RETRIES).delays =
      [2 * RETRY_BASE_DELAY, 4 * RETRY_BASE_DELAY] ∧
    (withRetry simulatedRateLimit RETRY_BASE_DELAY MAX_RETRIES).delays ≠
      [4 * RETRY_BASE_DELAY, 8 * RETRY_BASE_DELAY] := by
  constructor
  · rfl
  · intro hcontra
    have : (2 : ℕ) * RETRY_BASE_DELAY = 4 * RETRY_BASE_DELAY := by
      have h0 : (withRetry simulatedRateLimit RETRY_BASE_DELAY MAX_RETRIES).delays =
          [2 * RETRY_BASE_DELAY, 4 * RETRY_BASE_DELAY] := rfl
      rw [h0] at hcontra
      exact (List.cons.injEq _ _ _ _).mp hcontra |>.1
    norm_num [RETRY_BASE_DELAY] at this

/-- C2 (amended): in withRetry, for every call, attempt 1 runs immediately;
after the k-th attempt fails with a retryable error and attempts remain, the
executor sleeps `2 ^ k * baseDelay` before attempt k+1 — so the 2nd and 3rd
attempts are delayed by 2× and 4× the base delay respectively (4 s and 8 s
for the configured 2-second base), not 4× and 8× as the claim states — and
when the final attempt fails (retryable or not) the original error is
propagated unchanged.  Each call starts its own loop at attempt 1 with a
fresh attempt counter (`withRetry fn base maxRetries` is by definition
`retryLoop fn base 1 (maxRetries - 1)`, independent of any other call). -/
theorem withRetry_backoff_policy (α : Type) :
    (∀ (fn : ℕ → Except JsError α) (base maxRetries n : ℕ) (v : α),
      n + 1 ≤ maxRetries →
      (∀ k, k < n → ∃ e, fn (1 + k) = .error e ∧ isRetryableError e = true) →
      fn (1 + n) = .ok v →
      withRetry fn base maxRetries =
        ⟨.ok v, (List.range n).map (fun k => 2 ^ (1 + k) * base), n + 1⟩) ∧
    (∀ (fn : ℕ → Except JsError α) (base maxRetries : ℕ) (efinal : JsError),
      1 ≤ maxRetries →
      (∀ k, k < maxRetries - 1 → ∃ e, fn (1 + k) = .error e ∧ isRetryableError e = true) →
      fn maxRetries = .error efinal →
      withRetry fn base maxRetries =
        ⟨.error efinal, (List.range (maxRetries - 1)).map (fun k => 2 ^ (1 + k) * base),
         maxRetries⟩) := by
  constructor
  · intro fn base maxRetries n v hle hfail hok
    exact retryLoop_ok_after_failures fn base v n 1 (maxRetries - 1) (by omega) hfail hok
  · intro fn base maxRetries efinal hge hfail hfin
    have h := retryLoop_all_failures fn base efinal (maxRetries - 1) 1 hfail
      (by rw [show 1 + (maxRetries - 1) = maxRetries by omega]; exact hfin)
    rw [withRetry, h, show maxRetries - 1 + 1 = maxRetries by omega]

/-- Witness for C2 (amended) at the concrete scenario of the specification:
two simulated rate-limit failures then success on the 3rd attempt, with the
configured base delay and retry budget; the call succeeds after sleeping
4000 ms and then 8000 ms. -/
theorem withRetry_backoff_policy_witness :
    withRetry simulatedRateLimit RETRY_BASE_DELAY MAX_RETRIES =
      ⟨.ok 0, (List.range 2).map (fun k => 2 ^ (1 + k) * RETRY_BASE_DELAY), 2 + 1⟩ :=
  (withRetry_backoff_policy ℕ).1 simulatedRateLimit RETRY_BASE_DELAY MAX_RETRIES 2 0
    (by norm_num [MAX_RETRIES])
    (fun k hk => ⟨⟨some 429, "Too Many Requests"⟩, by
      interval_cases k <;> exact ⟨rfl, rfl⟩⟩)
    rfl

/-- C3: an error is classified retryable exactly when it is a
network/timeout failure (no response), a rate-limit signal (HTTP 429), or a
server fault (status ≥ 500); and every other error is fatal: if the first
attempt fails with a non-retryable error, withRetry rethrows that very
error immediately — one invocation of `fn`, no sleeps, no further
attempts. -/
theorem isRetryableError_classification (α : Type) :
    (∀ e : JsError, isRetryableError e = true ↔
      (e.response = none ∨ ∃ s, e.response = some s ∧ (s = 429 ∨ 500 ≤ s))) ∧
    (∀ (fn : ℕ → Except JsError α) (base maxRetries : ℕ) (e : JsError),
      1 ≤ maxRetries →
      fn 1 = .error e →
      isRetryableError e = false →
      withRetry fn base maxRetries = ⟨.error e, [], 1⟩) := by
  constructor
  · intro e
    rcases e with ⟨resp, msg⟩
    rcases resp with _ | s
    · simp [isRetryableError]
    · simp only [isRetryableError]
      constructor
      · intro hb
        refine Or.inr ⟨s, rfl, ?_⟩
        rcases Bool.or_eq_true_iff.mp hb with h | h
        · exact Or.inl (eq_of_beq h)
        · exact Or.inr (by exact_mod_cast of_decide_eq_true h)
      · rintro (hn | ⟨s', hs', hor⟩)
        · exact absurd hn (by simp)
        · obtain rfl : s = s' := by injection hs'
          rcases hor with rfl | hge
          · simp
          · refine Bool.or_eq_true_iff.mpr (Or.inr ?_)
            exact decide_eq_true (by exact_mod_cast hge)
  · intro fn base maxRetries e hge hf hre
    rw [withRetry]
    rcases hm : maxRetries - 1 with _ | rest
    · rw [retryLoop, hf]
    · rw [retryLoop, hf]
      simp [hre]

/-- Witness for C3: a simulated client rejection (HTTP 400) on the first
attempt fails immediately with that error, with exactly one invocation and
no sleeps, under the configured retry budget; and the classification holds
at the concrete error. -/
theorem isRetryableError_classification_witness :
    withRetry (fun _ => .error ⟨some 400, "Bad Request"⟩) RETRY_BASE_DELAY MAX_RETRIES =
      (⟨.error ⟨some 400, "Bad Request"⟩, [], 1⟩ : RetryTrace ℕ) :=
  (isRetryableError_classification ℕ).2 (fun _ => .error ⟨some 400, "Bad Request"⟩)
    RETRY_BASE_DELAY MAX_RETRIES ⟨some 400, "Bad Request"⟩
    (by norm_num [MAX_RETRIES]) rfl rfl

/-! ## SessionStore: sessionStates and getSessionState (src/server.js:62-79)

`sessionStates` is a JS Map from session id to a mutable state object; it is
modelled as an association list (the position of an entry is immaterial to
the source, which only uses membership, lookup and size). -/

/-- One recorded outcome, as pushed to `state.results`: a success
`{file, success: true, result: {savedTo}}` (src/server.js:530-534) or a
failure `{file, success: false, error}` (src/server.js:540-544,
582-586). -/
inductive TaskResult where
  | ok (file : String) (savedTo : String)
  | fail (file : String) (error : String)
deriving Repr, DecidableEq

/-- The saved output path of a success outcome, if any. -/
def TaskResult.savedTo : TaskResult → Option String
  | .ok _ p => some p
  | .fail _ _ => none

/-- Whether the outcome records a success. -/
def TaskResult.isOk : TaskResult → Bool
  | .ok _ _ => true
  | .fail _ _ => false

/-- The per-session mutable processing state (src/server.js:66-72). -/
structure SessionState where
  isProcessing : Bool
  totalImages : ℕ
  processedImages : ℕ
  currentImages : List String
  results : List TaskResult
deriving Repr, DecidableEq

/-- The `sessionStates` map. -/
abbrev SessionStore := List (String × SessionState)

/-- The default state object inserted for an unknown session id
(src/server.js:66-72). -/
def freshSessionState : SessionState := ⟨false, 0, 0, [], []⟩

/-- Embedding of getSessionState (src/server.js:64-75): reading the state of
a session id not present in the map first inserts a fresh default entry;
the map after the call is returned alongside the state. -/
def getSessionState (m : SessionStore) (sessionId : String) :
    SessionState × SessionStore :=
  match m.lookup sessionId with
  | some st => (st, m)
  | none => (freshSessionState, (sessionId, freshSessionState) :: m)

/-- The JSON answered by `GET /api/status` (src/server.js:267-287).  In the
backwards-compatibility branch without a sessionId the source omits the
`currentImage` field; it is modelled as the empty string there. -/
structure StatusResponse where
  isProcessing : Bool
  totalImages : ℕ
  processedImages : ℕ
  currentImages : List String
  results : List TaskResult
  currentImage : String
deriving Repr, DecidableEq

/-- Embedding of `GET /api/status` (src/server.js:267-287): without a
sessionId it answers the empty state and does not touch the store; with one
it reads — and for an unknown id thereby creates — the session state through
`getSessionState`. -/
def apiStatus (m : SessionStore) (sessionId : Option String) :
    StatusResponse × SessionStore :=
  match sessionId with
  | none => (⟨false, 0, 0, [], [], ""⟩, m)
  | some sid =>
    let r := getSessionState m sid
    (⟨r.1.isProcessing, r.1.totalImages, r.1.processedImages, r.1.currentImages,
      r.1.results,
      if 0 < r.1.currentImages.length then String.intercalate ", " r.1.currentImages
      else ""⟩,
     r.2)

/-- C9 (implicit): reading a session's state is not side-effect free — for
every sessionId not present in the store (including one already expired and
removed), a status query via getSessionState inserts a fresh default entry
(isProcessing false, totalImages 0, empty results) into the sessionStates
map before returning it, so every poll of an unknown or expired id grows
the store by one entry. -/
theorem getSessionState_inserts_default (m : SessionStore) (sid : String)
    (habsent : m.lookup sid = none) :
    (getSessionState m sid).1 = freshSessionState ∧
    freshSessionState.isProcessing = false ∧
    freshSessionState.totalImages = 0 ∧
    freshSessionState.results = [] ∧
    (getSessionState m sid).2 = (sid, freshSessionState) :: m ∧
    (getSessionState m sid).2.length = m.length + 1 ∧
    (getSessionState m sid).2.lookup sid = some freshSessionState ∧
    (apiStatus m (some sid)).2 = (sid, freshSessionState) :: m ∧
    (apiStatus m (some sid)).1.isProcessing = false ∧
    (apiStatus m (some sid)).1.totalImages = 0 ∧
    (apiStatus m (some sid)).1.results = [] := by
  have hg : getSessionState m sid = (freshSessionState, (sid, freshSessionState) :: m) := by
    rw [getSessionState, habsent]
  refine ⟨by rw [hg], rfl, rfl, rfl, by rw [hg], by rw [hg, List.length_cons], ?_, ?_, ?_, ?_, ?_⟩
  · rw [hg]
    simp [List.lookup]
  all_goals simp [apiStatus, hg, freshSessionState]

/-- Witness for C9: polling the empty store for an expired or unknown id. -/
theorem getSessionState_inserts_default_witness :
    (getSessionState [] "expired-session").1 = freshSessionState ∧
    freshSessionState.isProcessing = false ∧
    freshSessionState.totalImages = 0 ∧
    freshSessionState.results = [] ∧
    (getSessionState [] "expired-session").2 = [("expired-session", freshSessionState)] ∧
    (getSessionState [] "expired-session").2.length = ([] : SessionStore).length + 1 ∧
    (getSessionState [] "expired-session").2.lookup "expired-session" =
      some freshSessionState ∧
    (apiStatus [] (some "expired-session")).2 = [("expired-session", freshSessionState)] ∧
    (apiStatus [] (some "expired-session")).1.isProcessing = false ∧
    (apiStatus [] (some "expired-session")).1.totalImages = 0 ∧
    (apiStatus [] (some "expired-session")).1.results = [] :=
  getSessionState_inserts_default [] "expired-session" rfl

/-! ## Submission and the missing-credential path
(src/server.js:225-264 and 424-432)

`POST /api/process` validates the request body, creates the session and
kicks off the asynchronous batch; it never consults JASPER_API_KEY.  The
credential is read only inside processWithJasperOptimized, per task: when
it is missing the function returns a failure result before building the
form data or invoking the remote call. -/

/-- A file descriptor of the request body (the fields of the upload records
other than `originalName` — ids, paths, sizes — do not influence the
properties verified here). -/
structure JsFile where
  originalName : String
deriving Repr, DecidableEq

/-- The observable result of processWithJasperOptimized
(src/server.js:424-505): the `{success, error?, imageData?}` object together
with the number of invocations of the remote endpoint performed by the
wrapped axios call.  The downscaling of the foreground buffer (lines
438-443) changes buffers, not this observable shape; the extraction of a
message from a JSON error body (lines 487-499) is modelled as the message
carried by the error. -/
structure JasperResult where
  success : Bool
  error : Option String
  imageData : Option String
  remoteAttempts : ℕ
deriving Repr, DecidableEq

/-- Embedding of processWithJasperOptimized (src/server.js:424-505).
`apiKey` models `process.env.JASPER_API_KEY` (`none` when unset; the JS
test `if (!apiKey)` is also true for the empty string).  `remote` gives the
outcome of the k-th invocation of the remote call, wrapped by withRetry
exactly as on src/server.js:459-473. -/
def processWithJasperOptimized (apiKey : Option String)
    (remote : ℕ → Except JsError String) (baseDelay maxRetries : ℕ) : JasperResult :=
  if apiKey.getD "" = "" then
    ⟨false, some "JASPER_API_KEY not configured in .env file", none, 0⟩
  else
    let t := withRetry remote baseDelay maxRetries
    match t.result with
    | .ok data => ⟨true, none, some data, t.attemptsMade⟩
    | .error e => ⟨false, some e.message, none, t.attemptsMade⟩

/-- The JSON answered by `POST /api/process` (src/server.js:225-264). -/
structure ProcessResponse where
  status : ℕ
  error : Option String
  sessionId : Option String
  totalImages : ℕ
deriving Repr, DecidableEq

/-- Replacing the state object stored under a session id (the in-place
field mutations of src/server.js:249-253). -/
def updateSession (m : SessionStore) (sid : String) (st : SessionState) : SessionStore :=
  m.map (fun p => if p.1 = sid then (sid, st) else p)

/-- Embedding of `POST /api/process` (src/server.js:225-264): after
validating that files and a background are present, it creates the session
directory, registers the session, initializes the per-session state to
`{isProcessing: true, totalImages: files.length, processedImages: 0,
currentImages: [], results: []}` and responds immediately with the new
session id; the processing itself is started in the background
(src/server.js:256) and is modelled separately by the batch engine below.
`apiKey` is accepted as an argument to express that the handler is
independent of the credential: the source never reads it here. -/
def apiProcess (apiKey : Option String) (files : Option (List JsFile))
    (backgroundFile : Option JsFile) (sid : String) (m : SessionStore) :
    ProcessResponse × SessionStore :=
  match files with
  | none => (⟨400, some "No files to process", none, 0⟩, m)
  | some fs =>
    if fs.length = 0 then (⟨400, some "No files to process", none, 0⟩, m)
    else
      match backgroundFile, apiKey with
      | none, _ => (⟨400, some "No background image specified", none, 0⟩, m)
      | some _, _ =>
        let m1 := (getSessionState m sid).2
        let m2 := updateSession m1 sid ⟨true, fs.length, 0, [], []⟩
        (⟨200, none, some sid, fs.length⟩, m2)

/-- Counterexample to C7 as stated: with JASPER_API_KEY missing, a valid
submission still succeeds (HTTP 200, a session id is returned) and a
session state is created for the batch — the configuration error does not
surface at submission and a session is created, contrary to the claim. -/
theorem apiProcess_ignores_missing_credential :
    (apiProcess none (some [⟨"a.jpg"⟩]) (some ⟨"bg.jpg"⟩) "s1" []).1 =
      ⟨200, none, some "s1", 1⟩ ∧
    (apiProcess none (some [⟨"a.jpg"⟩]) (some ⟨"bg.jpg"⟩) "s1" []).2.lookup "s1" =
      some ⟨true, 1, 0, [], []⟩ := by
  constructor <;> rfl

/-- C7 (amended): the missing-credential error does not surface at
submission and does not prevent session creation — `POST /api/process`
never reads the credential, so a valid submission always answers 200 with a
fresh session (first two conjuncts).  The configuration error is fatal at
the level of each task: with JASPER_API_KEY unset (or empty — JS
falsiness), processWithJasperOptimized fails immediately with the error
"JASPER_API_KEY not configured in .env file", without invoking the remote
call and hence without any retry (last conjunct). -/
theorem missing_credential_behavior :
    (∀ (key : Option String) (fs : List JsFile) (bg : JsFile) (sid : String)
        (m : SessionStore), fs.length ≠ 0 →
      (apiProcess key (some fs) (some bg) sid m).1 = ⟨200, none, some sid, fs.length⟩) ∧
    (∀ (key : Option String) (fs : List JsFile) (bg : JsFile) (sid : String)
        (m : SessionStore), fs.length ≠ 0 → m.lookup sid = none →
      (apiProcess key (some fs) (some bg) sid m).2.lookup sid =
        some ⟨true, fs.length, 0, [], []⟩) ∧
    (∀ (key : Option String) (remote : ℕ → Except JsError String)
        (baseDelay maxRetries : ℕ), key.getD "" = "" →
      processWithJasperOptimized key remote baseDelay maxRetries =
        ⟨false, some "JASPER_API_KEY not configured in .env file", none, 0⟩) := by
  refine ⟨?_, ?_, ?_⟩
  · intro key fs bg sid m hfs
    rw [apiProcess]
    rcases key <;> simp [hfs]
  · intro key fs bg sid m hfs habsent
    have hg : getSessionState m sid = (freshSessionState, (sid, freshSessionState) :: m) := by
      rw [getSessionState, habsent]
    rcases key <;>
      simp [apiProcess, hfs, hg, updateSession, List.lookup]
  · intro key remote baseDelay maxRetries hkey
    rw [processWithJasperOptimized, if_pos hkey]

/-- Witness for C7 (amended) at a concrete missing credential, one file and
an always-failing remote stub. -/
theorem missing_credential_behavior_witness :
    (apiProcess none (some [⟨"p1.png"⟩, ⟨"p2.png"⟩]) (some ⟨"bg.png"⟩) "s2" []).1 =
      ⟨200, none, some "s2", 2⟩ ∧
    (apiProcess none (some [⟨"p1.png"⟩, ⟨"p2.png"⟩]) (some ⟨"bg.png"⟩) "s2" []).2.lookup "s2" =
      some ⟨true, 2, 0, [], []⟩ ∧
    processWithJasperOptimized none (fun _ => .ok "img") RETRY_BASE_DELAY MAX_RETRIES =
      ⟨false, some "JASPER_API_KEY not configured in .env file", none, 0⟩ :=
  ⟨missing_credential_behavior.1 none [⟨"p1.png"⟩, ⟨"p2.png"⟩] ⟨"bg.png"⟩ "s2" []
      (by norm_num),
   missing_credential_behavior.2.1 none [⟨"p1.png"⟩, ⟨"p2.png"⟩] ⟨"bg.png"⟩ "s2" []
      (by norm_num) rfl,
   missing_credential_behavior.2.2 none (fun _ => .ok "img") RETRY_BASE_DELAY MAX_RETRIES rfl⟩

/-! ## BatchDispatcher: processImagesParallel and processSingleImage
(src/server.js:508-624)

The dispatcher is asynchronous JavaScript: chunks are iterated in a `for`
loop, the chunk background is awaited, the chunk tasks run concurrently
under `pLimit(CONCURRENCY_LIMIT)`, and `await Promise.all` closes the
chunk.  The event loop executes the synchronous segment between two await
points atomically; a status query can observe the session state only
between such segments.  The model is a small-step transition system whose
steps are exactly these segments:

* `bgOk`/`bgFail` — the resumption after `await loadBackgroundBuffer`
  (src/server.js:577): on failure the whole catch block (lines 579-589)
  records every task of the chunk as failed with the single shared cause
  and continues with the next chunk;
* `start` — p-limit begins `processSingleImage` for a queued task: the
  synchronous prefix up to the first await pushes the file name onto
  `state.currentImages` (src/server.js:512);
* `finish` — the continuation after the remote call settles: persist the
  buffer on success, push the outcome, and in the `finally` block remove
  the name from `currentImages` and increment `processedImages`
  (src/server.js:518-554) — one atomic segment;
* `finalize` — the code after the loop (src/server.js:605-606).

p-limit dispatches queued tasks in FIFO order; the model lets any pending
task start, which only enlarges the set of schedules, and the safety
properties below hold for all of them.  The remote call of a task `i`
(processWithJasperOptimized together with its withRetry wrapping, whose
internal sleeps touch no session state) is abstracted by the oracle
`taskOutcome i`; a failure string covers both a remote failure and a local
write failure, both caught by the same catch block.  `bgLoad c` abstracts
whether loadBackgroundBuffer succeeds for the chunk starting at index
`c`. -/

/-- The environment of one batch: the submitted files, the configuration,
and the oracles for the chunk background loads and the per-task remote
outcomes. -/
structure BatchEnv where
  files : List JsFile
  chunkSize : ℕ
  limit : ℕ
  bgLoad : ℕ → Bool
  taskOutcome : ℕ → Except String String
  outputDirectory : String

/-- The end index (exclusive) of the chunk starting at `c`:
`Math.min(chunkStart + CHUNK_SIZE, files.length)` (src/server.js:567). -/
def cEnd (env : BatchEnv) (c : ℕ) : ℕ := min (c + env.chunkSize) env.files.length

/-- The task indices of the chunk starting at `c`
(`files.slice(chunkStart, chunkEnd)`, src/server.js:568). -/
def chunkTasks (env : BatchEnv) (c : ℕ) : List ℕ := List.range' c (cEnd env c - c)

/-- The original name of task `i`. -/
def fname (env : BatchEnv) (i : ℕ) : String := (env.files.getD i ⟨""⟩).originalName

/-- The output path derived for task `i`:
`path.join(outputDirectory, composited-(originalName))`
(src/server.js:524-525). -/
def outPath (env : BatchEnv) (i : ℕ) : String :=
  env.outputDirectory ++ "/composited-" ++ fname env i

/-- The terminal outcome task `i` must reach: if the background load of its
chunk fails, the shared failure recorded by the catch block of
src/server.js:579-589; otherwise its own remote outcome, recorded by
processSingleImage. -/
def expectedResult (env : BatchEnv) (i : ℕ) : TaskResult :=
  if env.bgLoad (i / env.chunkSize * env.chunkSize) then
    match env.taskOutcome i with
    | .ok _ => .ok (fname env i) (outPath env i)
    | .error msg => .fail (fname env i) msg
  else .fail (fname env i) "Failed to load background image"

/-- Where the dispatcher is between two atomic segments: at the background
await of the chunk starting at `chunkStart`; inside a chunk with the queued
(`pending`) and in-flight (`active`) task indices; after the loop but
before the trailing synchronous block; or done. -/
inductive Phase where
  | loadBg (chunkStart : ℕ)
  | running (chunkStart : ℕ) (pending active : List ℕ)
  | postLoop
  | done
deriving Repr, DecidableEq

/-- The state observable between atomic segments: the session state (what
`/api/status` reports), the output files written so far (in write order,
duplicates kept), and the dispatcher phase. -/
structure EngineState where
  session : SessionState
  writes : List String
  phase : Phase
deriving Repr, DecidableEq

/-- The synchronous prefix of processSingleImage (src/server.js:512):
push the file name onto `currentImages`. -/
def startTask (env : BatchEnv) (i : ℕ) (s : SessionState) : SessionState :=
  {s with currentImages := s.currentImages ++ [fname env i]}

/-- The continuation of processSingleImage after the remote call settles
(src/server.js:518-554): push the outcome, splice the name out of
`currentImages` and increment `processedImages`. -/
def finishSession (env : BatchEnv) (i : ℕ) (s : SessionState) : SessionState :=
  match env.taskOutcome i with
  | .ok _ =>
    {s with results := s.results ++ [.ok (fname env i) (outPath env i)],
            currentImages := s.currentImages.erase (fname env i),
            processedImages := s.processedImages + 1}
  | .error msg =>
    {s with results := s.results ++ [.fail (fname env i) msg],
            currentImages := s.currentImages.erase (fname env i),
            processedImages := s.processedImages + 1}

/-- The write performed by the same segment (src/server.js:526): on
success, `fs.writeFileSync` on the derived output path. -/
def finishWrites (env : BatchEnv) (i : ℕ) (w : List String) : List String :=
  match env.taskOutcome i with
  | .ok _ => w ++ [outPath env i]
  | .error _ => w

/-- The catch block of a failed chunk background load
(src/server.js:579-589): record every task of the chunk as failed with the
one shared cause and count them all as processed. -/
def recordBgFailure (env : BatchEnv) (c : ℕ) (s : SessionState) : SessionState :=
  let failures := (chunkTasks env c).map
    (fun i => TaskResult.fail (fname env i) "Failed to load background image")
  {s with results := s.results ++ failures,
          processedImages := s.processedImages + (chunkTasks env c).length}

/-- Where the loop goes after the chunk starting at `c` is finished:
the next chunk, or past the loop. -/
def nextPhase (env : BatchEnv) (c : ℕ) : Phase :=
  if c + env.chunkSize < env.files.length then .loadBg (c + env.chunkSize) else .postLoop

/-- One atomic segment of the dispatcher.  `start` is guarded by the
p-limit concurrency bound (`activeCount < concurrency`); `finish` may
complete any in-flight task (completion order is unconstrained); the chunk
advances only when the last in-flight task of an exhausted queue finishes
(`await Promise.all`, src/server.js:597). -/
inductive Step (env : BatchEnv) : EngineState → EngineState → Prop where
  | bgOk {s w c} (hc : c < env.files.length) (hbg : env.bgLoad c = true) :
      Step env ⟨s, w, .loadBg c⟩ ⟨s, w, .running c (chunkTasks env c) []⟩
  | bgFail {s w c} (hc : c < env.files.length) (hbg : env.bgLoad c = false) :
      Step env ⟨s, w, .loadBg c⟩ ⟨recordBgFailure env c s, w, nextPhase env c⟩
  | start {s w c pending active i} (hi : i ∈ pending)
      (hcap : active.length < env.limit) :
      Step env ⟨s, w, .running c pending active⟩
        ⟨startTask env i s, w, .running c (pending.erase i) (active ++ [i])⟩
  | finish {s w c pending active i} (hi : i ∈ active) :
      Step env ⟨s, w, .running c pending active⟩
        ⟨finishSession env i s, finishWrites env i w,
         if pending = [] ∧ active.erase i = [] then nextPhase env c
         else .running c pending (active.erase i)⟩
  | finalize {s w} :
      Step env ⟨s, w, .postLoop⟩
        ⟨{s with isProcessing := false, currentImages := []}, w, .done⟩

/-- The state right after `POST /api/process` initialized the session
(src/server.js:248-256): the dispatcher is about to load the background of
the first chunk (or, for an empty batch, past the loop). -/
def initState (env : BatchEnv) : EngineState :=
  ⟨⟨true, env.files.length, 0, [], []⟩, [],
   if 0 < env.files.length then .loadBg 0 else .postLoop⟩

/-- The states the dispatcher can be observed in. -/
def Reachable (env : BatchEnv) (st : EngineState) : Prop :=
  Relation.ReflTransGen (Step env) (initState env) st

section ListHelpers

/-- Swapping a filter predicate that differs only at one element `i` of a
duplicate-free list, from excluding `i` to including it, prepends `i` up to
permutation. -/
lemma filter_flip_perm (l : List ℕ) (hl : l.Nodup) (i : ℕ) (hi : i ∈ l)
    (p q : ℕ → Bool) (hpi : p i = false) (hqi : q i = true)
    (hpq : ∀ j, j ≠ i → p j = q j) :
    (l.filter q).Perm (i :: l.filter p) := by
  induction l with
  | nil => cases hi
  | cons a t ih =>
    have hnd := List.nodup_cons.mp hl
    rcases List.mem_cons.mp hi with rfl | hit
    · have hfq : (i :: t).filter q = i :: t.filter q := by simp [List.filter_cons, hqi]
      have hfp : (i :: t).filter p = t.filter p := by simp [List.filter_cons, hpi]
      rw [hfq, hfp]
      refine List.Perm.cons i ?_
      have heq : t.filter q = t.filter p :=
        List.filter_congr fun j hj => (hpq j (fun hji => hnd.1 (hji ▸ hj))).symm
      rw [heq]
    · have hai : a ≠ i := fun h => hnd.1 (h ▸ hit)
      have hpa : p a = q a := hpq a hai
      cases hqa : q a with
      | false =>
        have hfq : (a :: t).filter q = t.filter q := by simp [List.filter_cons, hqa]
        have hfp : (a :: t).filter p = t.filter p := by
          simp [List.filter_cons, hpa, hqa]
        rw [hfq, hfp]
        exact ih hnd.2 hit
      | true =>
        have hfq : (a :: t).filter q = a :: t.filter q := by simp [List.filter_cons, hqa]
        have hfp : (a :: t).filter p = a :: t.filter p := by
          simp [List.filter_cons, hpa, hqa]
        rw [hfq, hfp]
        exact ((ih hnd.2 hit).cons a).trans (List.Perm.swap i a _)

/-- Erasing the image of a member commutes with mapping, up to permutation
(the JS splice on `currentImages` removes the first occurrence of the name,
which for duplicate names may belong to a different task — the multiset of
names is preserved nonetheless). -/
lemma map_erase_perm (f : ℕ → String) (l : List ℕ) (i : ℕ) (hi : i ∈ l) :
    ((l.map f).erase (f i)).Perm ((l.erase i).map f) := by
  induction l with
  | nil => cases hi
  | cons a t ih =>
    by_cases hai : a = i
    · subst hai
      rw [List.map_cons, List.erase_cons_head, List.erase_cons_head]
    · have hit : i ∈ t := by
        rcases List.mem_cons.mp hi with h | h
        · exact absurd h.symm hai
        · exact h
      have hbne : ¬((a : ℕ) == i) = true := by simp [hai]
      rw [List.map_cons]
      by_cases hfa : f a = f i
      · rw [hfa, List.erase_cons_head, List.erase_cons_tail hbne, List.map_cons, hfa]
        exact (List.perm_cons_erase hit).map f
      · have hfne : ¬(f a == f i) = true := by simp [hfa]
        rw [List.erase_cons_tail hfne, List.erase_cons_tail hbne, List.map_cons]
        exact (ih hit).cons (f a)

end ListHelpers

lemma mem_chunkTasks {env : BatchEnv} {c i : ℕ} :
    i ∈ chunkTasks env c ↔ c ≤ i ∧ i < cEnd env c := by
  rw [chunkTasks, List.mem_range'_1]
  have h1 : cEnd env c ≤ c + env.chunkSize := min_le_left _ _
  omega

lemma chunkTasks_nodup (env : BatchEnv) (c : ℕ) : (chunkTasks env c).Nodup := by
  rw [chunkTasks]
  exact List.nodup_range' _ _

lemma chunkTasks_length (env : BatchEnv) (c : ℕ) :
    (chunkTasks env c).length = cEnd env c - c := by
  simp [chunkTasks]

/-- A task of an aligned chunk computes its own chunk start by integer
division. -/
lemma chunkStart_of_mem {env : BatchEnv} {c i : ℕ} (hdvd : env.chunkSize ∣ c)
    (hi : i ∈ chunkTasks env c) :
    i / env.chunkSize * env.chunkSize = c := by
  obtain ⟨q, hq⟩ := hdvd
  rw [mem_chunkTasks] at hi
  have hle : cEnd env c ≤ c + env.chunkSize := min_le_left _ _
  have hcs : 0 < env.chunkSize := by omega
  have hdiv : i / env.chunkSize = q := by
    refine Nat.div_eq_of_lt_le (by rw [mul_comm, ← hq]; exact hi.1) ?_
    rw [Nat.succ_mul, mul_comm, ← hq]
    omega
  rw [hdiv, mul_comm, ← hq]

/-- The tasks of the current chunk that are already terminal: neither still
queued nor in flight. -/
def doneInChunk (env : BatchEnv) (c : ℕ) (pending active : List ℕ) : List ℕ :=
  (chunkTasks env c).filter (fun i => decide (i ∉ pending) && decide (i ∉ active))

/-- The phase-indexed part of the dispatcher invariant: the recorded
results are, up to permutation (within a chunk, completion order is
unconstrained), the expected outcomes of exactly the terminal tasks; the
in-flight name list mirrors the active set; queue and in-flight set are
disjoint duplicate-free subsets of the current chunk; and the in-flight
set is bounded by the concurrency limit. -/
def phaseInv (env : BatchEnv) (sess : SessionState) : Phase → Prop
  | .loadBg c =>
      c < env.files.length ∧ env.chunkSize ∣ c ∧
      sess.results.Perm ((List.range c).map (expectedResult env)) ∧
      sess.currentImages = []
  | .running c pending active =>
      c < env.files.length ∧ env.chunkSize ∣ c ∧ env.bgLoad c = true ∧
      (pending ≠ [] ∨ active ≠ []) ∧
      pending.Nodup ∧ active.Nodup ∧
      (∀ i ∈ pending, i ∉ active) ∧
      (∀ i ∈ pending, i ∈ chunkTasks env c) ∧
      (∀ i ∈ active, i ∈ chunkTasks env c) ∧
      active.length ≤ env.limit ∧
      sess.results.length + pending.length + active.length = cEnd env c ∧
      sess.results.Perm
        ((List.range c).map (expectedResult env) ++
          (doneInChunk env c pending active).map (expectedResult env)) ∧
      sess.currentImages.Perm (active.map (fname env))
  | .postLoop =>
      sess.results.Perm ((List.range env.files.length).map (expectedResult env)) ∧
      sess.currentImages = []
  | .done =>
      sess.results.Perm ((List.range env.files.length).map (expectedResult env)) ∧
      sess.currentImages = [] ∧ sess.isProcessing = false

/-- The master invariant of the dispatcher.  Everywhere: the session total
is the batch size, `processedImages` equals the number of recorded results,
and the writes performed are exactly the saved paths of the recorded
results; plus the phase-indexed bookkeeping of `phaseInv`. -/
def Inv (env : BatchEnv) (st : EngineState) : Prop :=
  st.session.totalImages = env.files.length ∧
  st.session.processedImages = st.session.results.length ∧
  st.writes = st.session.results.filterMap TaskResult.savedTo ∧
  phaseInv env st.session st.phase

lemma inv_init (env : BatchEnv) : Inv env (initState env) := by
  rw [Inv, initState]
  refine ⟨rfl, rfl, rfl, ?_⟩
  by_cases h : 0 < env.files.length
  · rw [if_pos h]
    exact ⟨h, Dvd.intro 0 rfl, by simp [phaseInv], rfl⟩
  · rw [if_neg h]
    push_neg at h
    have h0 : env.files.length = 0 := Nat.le_zero.mp h
    exact ⟨by simp [phaseInv, h0], rfl⟩

lemma cEnd_le (env : BatchEnv) (c : ℕ) : cEnd env c ≤ c + env.chunkSize :=
  min_le_left _ _

lemma cEnd_le_len (env : BatchEnv) (c : ℕ) : cEnd env c ≤ env.files.length :=
  min_le_right _ _

lemma le_cEnd {env : BatchEnv} {c : ℕ} (hc : c < env.files.length) : c ≤ cEnd env c :=
  le_min (Nat.le_add_right _ _) hc.le

lemma lt_cEnd {env : BatchEnv} {c : ℕ} (hc : c < env.files.length)
    (hcs : 0 < env.chunkSize) : c < cEnd env c :=
  lt_min (by omega) hc

lemma chunkTasks_ne_nil {env : BatchEnv} {c : ℕ} (hc : c < env.files.length)
    (hcs : 0 < env.chunkSize) : chunkTasks env c ≠ [] := by
  have h := lt_cEnd hc hcs
  intro hcon
  have h2 := congrArg List.length hcon
  rw [chunkTasks_length] at h2
  simp at h2
  omega

lemma range_append_range' {a b : ℕ} (h : a ≤ b) :
    List.range b = List.range a ++ List.range' a (b - a) := by
  rw [List.range_eq_range', List.range_eq_range']
  have h2 := List.range'_append 0 a (b - a) 1
  simp only [one_mul, zero_add] at h2
  rw [show b - a + a = b by omega] at h2
  exact h2.symm

lemma range_cEnd_decomp {env : BatchEnv} {c : ℕ} (hc : c < env.files.length) :
    List.range (cEnd env c) = List.range c ++ chunkTasks env c := by
  rw [chunkTasks]
  exact range_append_range' (le_cEnd hc)

lemma expectedResult_of_mem_bgOk {env : BatchEnv} {c i : ℕ} (hdvd : env.chunkSize ∣ c)
    (hi : i ∈ chunkTasks env c) (hbg : env.bgLoad c = true) :
    expectedResult env i =
      match env.taskOutcome i with
      | .ok _ => .ok (fname env i) (outPath env i)
      | .error msg => .fail (fname env i) msg := by
  rw [expectedResult, chunkStart_of_mem hdvd hi, hbg, if_pos rfl]

lemma expectedResult_of_mem_bgFail {env : BatchEnv} {c i : ℕ} (hdvd : env.chunkSize ∣ c)
    (hi : i ∈ chunkTasks env c) (hbg : env.bgLoad c = false) :
    expectedResult env i = .fail (fname env i) "Failed to load background image" := by
  rw [expectedResult, chunkStart_of_mem hdvd hi, hbg, if_neg (by simp)]

lemma doneInChunk_fresh (env : BatchEnv) (c : ℕ) :
    doneInChunk env c (chunkTasks env c) [] = [] := by
  rw [doneInChunk]
  rw [List.filter_eq_nil_iff]
  intro a ha
  simp [ha]

lemma doneInChunk_start {env : BatchEnv} {c i : ℕ} {pending active : List ℕ}
    (hi : i ∈ pending) :
    doneInChunk env c (pending.erase i) (active ++ [i]) =
      doneInChunk env c pending active := by
  rw [doneInChunk, doneInChunk]
  refine List.filter_congr ?_
  intro j _
  by_cases hji : j = i
  · subst hji
    simp [hi]
  · simp [List.mem_erase_of_ne hji, hji]

lemma doneInChunk_finish {env : BatchEnv} {c i : ℕ} {pending active : List ℕ}
    (hact : active.Nodup) (hi : i ∈ active) (hip : i ∉ pending)
    (hichunk : i ∈ chunkTasks env c) :
    (doneInChunk env c pending (active.erase i)).Perm
      (i :: doneInChunk env c pending active) := by
  rw [doneInChunk, doneInChunk]
  refine filter_flip_perm _ (chunkTasks_nodup env c) i hichunk _ _ ?_ ?_ ?_
  · simp [hi]
  · have hno : i ∉ active.erase i := fun hmem =>
      ((List.Nodup.mem_erase_iff hact).mp hmem).1 rfl
    simp [hip, hno]
  · intro j hji
    simp [List.mem_erase_of_ne hji]

lemma doneInChunk_last {env : BatchEnv} {c i : ℕ} (hichunk : i ∈ chunkTasks env c) :
    (chunkTasks env c).Perm (i :: doneInChunk env c [] [i]) := by
  have h := filter_flip_perm (chunkTasks env c) (chunkTasks_nodup env c) i hichunk
    (fun j => decide (j ∉ ([] : List ℕ)) && decide (j ∉ [i])) (fun _ => true)
    (by simp) (by simp) (by intro j hji; simp [hji])
  rw [List.filter_true] at h
  exact h

lemma phaseInv_nextPhase {env : BatchEnv} {sess : SessionState} {c : ℕ}
    (hdvd : env.chunkSize ∣ c)
    (hperm : sess.results.Perm ((List.range (cEnd env c)).map (expectedResult env)))
    (hcur : sess.currentImages = []) :
    phaseInv env sess (nextPhase env c) := by
  rw [nextPhase]
  split
  · rename_i hlt
    simp only [phaseInv]
    refine ⟨hlt, dvd_add hdvd dvd_rfl, ?_, hcur⟩
    rwa [show cEnd env c = c + env.chunkSize by rw [cEnd]; omega] at hperm
  · rename_i hge
    simp only [phaseInv]
    refine ⟨?_, hcur⟩
    rwa [show cEnd env c = env.files.length by rw [cEnd]; omega] at hperm

/-- Every atomic segment of the dispatcher preserves the master
invariant. -/
lemma inv_step (env : BatchEnv) (hcs : 0 < env.chunkSize) {st st' : EngineState}
    (hstep : Step env st st') (hinv : Inv env st) : Inv env st' := by
  obtain ⟨htot, hcount, hwr, hph⟩ := hinv
  cases hstep with
  | @bgOk s w c hc hbg =>
    dsimp only at htot hcount hwr
    simp only [phaseInv] at hph
    obtain ⟨hc', hdvd, hperm, hcur⟩ := hph
    refine ⟨htot, hcount, hwr, ?_⟩
    simp only [phaseInv]
    have hlen : s.results.length = c := by
      rw [hperm.length_eq, List.length_map, List.length_range]
    refine ⟨hc, hdvd, hbg, Or.inl (chunkTasks_ne_nil hc hcs), chunkTasks_nodup env c,
      List.nodup_nil, fun i _ => List.not_mem_nil i, fun i hi => hi,
      fun i hi => absurd hi (List.not_mem_nil i), Nat.zero_le _, ?_, ?_, ?_⟩
    · rw [hlen, chunkTasks_length, List.length_nil]
      have := le_cEnd hc
      omega
    · rw [doneInChunk_fresh]
      simpa using hperm
    · simp [hcur]
  | @bgFail s w c hc hbg =>
    dsimp only at htot hcount hwr
    simp only [phaseInv] at hph
    obtain ⟨hc', hdvd, hperm, hcur⟩ := hph
    have hmapeq : (chunkTasks env c).map
        (fun i => TaskResult.fail (fname env i) "Failed to load background image") =
        (chunkTasks env c).map (expectedResult env) := by
      refine List.map_congr_left ?_
      intro i hi
      rw [expectedResult_of_mem_bgFail hdvd hi hbg]
    have hperm' : (recordBgFailure env c s).results.Perm
        ((List.range (cEnd env c)).map (expectedResult env)) := by
      rw [recordBgFailure]
      simp only
      rw [range_cEnd_decomp hc, List.map_append, hmapeq]
      exact hperm.append_right _
    refine ⟨htot, ?_, ?_, phaseInv_nextPhase hdvd hperm' hcur⟩
    · simp [recordBgFailure, hcount, chunkTasks_length]
    · simp only [recordBgFailure]
      rw [List.filterMap_append, List.filterMap_map]
      have hnone : ((chunkTasks env c).filterMap
          (TaskResult.savedTo ∘ fun i =>
            TaskResult.fail (fname env i) "Failed to load background image")) = [] := by
        simp [TaskResult.savedTo, Function.comp]
      rw [hnone, List.append_nil]
      exact hwr
  | @start s w c pending active i hi hcap =>
    dsimp only at htot hcount hwr
    simp only [phaseInv] at hph
    obtain ⟨hc, hdvd, hbg, hne, hpnd, hand, hdisj, hpc, hac, hlim, hcnt, hperm, hcurp⟩ := hph
    refine ⟨htot, hcount, hwr, ?_⟩
    simp only [phaseInv]
    refine ⟨hc, hdvd, hbg, Or.inr (by simp), hpnd.erase i, ?_, ?_, ?_, ?_, ?_, ?_, ?_, ?_⟩
    · refine List.Nodup.append hand (List.nodup_singleton i) ?_
      intro a ha hmem
      rw [List.mem_singleton] at hmem
      exact hdisj i hi (hmem ▸ ha)
    · intro j hj
      have hjp : j ∈ pending := List.mem_of_mem_erase hj
      have hjne : j ≠ i := fun h =>
        ((List.Nodup.mem_erase_iff hpnd).mp hj).1 h
      rw [List.mem_append, List.mem_singleton]
      rintro (h | h)
      · exact hdisj j hjp h
      · exact hjne h
    · intro j hj
      exact hpc j (List.mem_of_mem_erase hj)
    · intro j hj
      rcases List.mem_append.mp hj with h | h
      · exact hac j h
      · exact (List.mem_singleton.mp h) ▸ hpc i hi
    · rw [List.length_append, List.length_singleton]
      omega
    · simp only [startTask]
      rw [List.length_erase_of_mem hi, List.length_append, List.length_singleton]
      have := List.length_pos_of_mem hi
      omega
    · rw [doneInChunk_start hi]
      exact hperm
    · simp only [startTask, List.map_append]
      refine hcurp.append_right _ |>.trans ?_
      simp
  | @finish s w c pending active i hi =>
    dsimp only at htot hcount hwr
    simp only [phaseInv] at hph
    obtain ⟨hc, hdvd, hbg, hne, hpnd, hand, hdisj, hpc, hac, hlim, hcnt, hperm, hcurp⟩ := hph
    have hichunk : i ∈ chunkTasks env c := hac i hi
    have hip : i ∉ pending := fun hp => hdisj i hp hi
    have hfin : (finishSession env i s).results = s.results ++ [expectedResult env i] ∧
        (finishSession env i s).currentImages = s.currentImages.erase (fname env i) ∧
        (finishSession env i s).processedImages = s.processedImages + 1 ∧
        (finishSession env i s).totalImages = s.totalImages ∧
        finishWrites env i w = w ++ (expectedResult env i).savedTo.toList := by
      rw [expectedResult_of_mem_bgOk hdvd hichunk hbg, finishSession, finishWrites]
      rcases ho : env.taskOutcome i with d | msg <;>
        simp [ho, TaskResult.savedTo]
    obtain ⟨h1, h2, h3, h4, h6⟩ := hfin
    have hsingle : List.filterMap TaskResult.savedTo [expectedResult env i] =
        (expectedResult env i).savedTo.toList := by
      rcases hsv : (expectedResult env i).savedTo with _ | x <;>
        simp [List.filterMap_cons, hsv, Option.toList]
    by_cases hlast : pending = [] ∧ active.erase i = []
    · obtain ⟨hp0, ha0⟩ := hlast
      rw [if_pos ⟨hp0, ha0⟩]
      have hl1 : active.length = 1 := by
        have hle := List.length_erase_of_mem hi
        rw [ha0] at hle
        simp at hle
        have hpos := List.length_pos_of_mem hi
        omega
      obtain ⟨a, ha⟩ := List.length_eq_one.mp hl1
      have hact1 : active = [i] := by
        rw [ha] at hi
        rw [ha, List.mem_singleton.mp hi]
      have hchunkperm : (chunkTasks env c).Perm
          (i :: doneInChunk env c pending active) := by
        rw [hp0, hact1]
        exact doneInChunk_last hichunk
      have hperm' : (finishSession env i s).results.Perm
          ((List.range (cEnd env c)).map (expectedResult env)) := by
        rw [h1, range_cEnd_decomp hc, List.map_append]
        refine (hperm.append_right [expectedResult env i]).trans ?_
        rw [List.append_assoc]
        refine List.Perm.append_left _ ?_
        refine (List.perm_append_singleton _ _).trans ?_
        have hmc := hchunkperm.map (expectedResult env)
        rw [List.map_cons] at hmc
        exact hmc.symm
      have hcur' : (finishSession env i s).currentImages = [] := by
        rw [h2]
        have hsing : s.currentImages = [fname env i] := by
          refine List.perm_singleton.mp ?_
          have := hcurp
          rw [hact1] at this
          simpa using this
        rw [hsing, List.erase_cons_head]
      refine ⟨by rw [h4]; exact htot, ?_, ?_, phaseInv_nextPhase hdvd hperm' hcur'⟩
      · rw [h3, h1, List.length_append, hcount]
        simp
      · rw [h6, h1, List.filterMap_append, hwr, hsingle]
    · rw [if_neg hlast]
      refine ⟨by rw [h4]; exact htot, ?_, ?_, ?_⟩
      · rw [h3, h1, List.length_append, hcount]
        simp
      · rw [h6, h1, List.filterMap_append, hwr, hsingle]
      · simp only [phaseInv]
        refine ⟨hc, hdvd, hbg, ?_, hpnd, hand.erase i, ?_, hpc, ?_, ?_, ?_, ?_, ?_⟩
        · rcases Decidable.em (pending = []) with hp | hp
          · refine Or.inr ?_
            intro hcon
            exact hlast ⟨hp, hcon⟩
          · exact Or.inl hp
        · intro j hj hj2
          exact hdisj j hj (List.mem_of_mem_erase hj2)
        · intro j hj
          exact hac j (List.mem_of_mem_erase hj)
        · exact le_trans (List.erase_sublist i active).length_le hlim
        · rw [h1, List.length_append, List.length_erase_of_mem hi]
          have := List.length_pos_of_mem hi
          simp only [List.length_singleton]
          omega
        · rw [h1]
          refine (hperm.append_right _).trans ?_
          rw [List.append_assoc]
          refine List.Perm.append_left _ ?_
          refine (List.perm_append_singleton _ _).trans ?_
          have hd := (doneInChunk_finish hand hi hip hichunk).map (expectedResult env)
          rw [List.map_cons] at hd
          exact hd.symm
        · rw [h2]
          refine (hcurp.erase (fname env i)).trans ?_
          exact map_erase_perm (fname env) active i hi
  | @finalize s w =>
    dsimp only at htot hcount hwr
    simp only [phaseInv] at hph
    obtain ⟨hperm, hcur⟩ := hph
    exact ⟨htot, hcount, hwr, by simp only [phaseInv]; exact ⟨hperm, by trivial, by trivial⟩⟩

/-- The master invariant holds in every observable state. -/
lemma inv_reachable (env : BatchEnv) (hcs : 0 < env.chunkSize) {st : EngineState}
    (hr : Reachable env st) : Inv env st := by
  induction hr with
  | refl => exact inv_init env
  | tail hsteps hstep ih => exact inv_step env hcs hstep ih

/-- Termination measure for the dispatcher. -/
def engineMeasure (env : BatchEnv) (st : EngineState) : ℕ :=
  match st.phase with
  | .done => 0
  | .postLoop => 1
  | .loadBg c => 2 + 5 * (env.files.length - c)
  | .running c pending active =>
      1 + 5 * (env.files.length - cEnd env c) + 3 * pending.length + 2 * active.length

/-- Every atomic segment strictly decreases the measure: the dispatcher
cannot run forever. -/
lemma engineMeasure_decreases (env : BatchEnv) (hcs : 0 < env.chunkSize)
    {st st' : EngineState} (hstep : Step env st st') :
    engineMeasure env st' < engineMeasure env st := by
  cases hstep with
  | @bgOk s w c hc hbg =>
    simp only [engineMeasure, chunkTasks_length, List.length_nil]
    have h1 := le_cEnd hc
    have h2 := cEnd_le_len env c
    omega
  | @bgFail s w c hc hbg =>
    rw [nextPhase]
    split
    · rename_i hlt
      simp only [engineMeasure]
      omega
    · simp only [engineMeasure]
      omega
  | @start s w c pending active i hi hcap =>
    simp only [engineMeasure]
    rw [List.length_erase_of_mem hi, List.length_append, List.length_singleton]
    have := List.length_pos_of_mem hi
    omega
  | @finish s w c pending active i hi =>
    have hmin : cEnd env c = min (c + env.chunkSize) env.files.length := rfl
    have hapos := List.length_pos_of_mem hi
    have herase := List.length_erase_of_mem hi
    by_cases hlast : pending = [] ∧ active.erase i = []
    · rw [if_pos hlast]
      have ha1 : active.length = 1 := by
        rw [hlast.2] at herase
        simp at herase
        omega
      rw [nextPhase]
      split
      · rename_i hlt
        simp only [engineMeasure, hlast.1, List.length_nil, ha1]
        omega
      · simp only [engineMeasure, hlast.1, List.length_nil, ha1]
        omega
    · rw [if_neg hlast]
      simp only [engineMeasure]
      rw [herase]
      omega
  | @finalize s w =>
    simp only [engineMeasure]
    omega

/-- From every observable state that is not done, some segment can run:
the dispatcher never deadlocks, whatever the mix of task failures. -/
lemma engine_progress (env : BatchEnv) (hcs : 0 < env.chunkSize)
    (hlim : 0 < env.limit) {st : EngineState} (hr : Reachable env st)
    (hnd : st.phase ≠ .done) : ∃ st', Step env st st' := by
  have hinv := inv_reachable env hcs hr
  obtain ⟨htot, hcount, hwr, hph⟩ := hinv
  obtain ⟨s, w, ph⟩ := st
  dsimp only at hph hnd
  cases ph with
  | loadBg c =>
    simp only [phaseInv] at hph
    obtain ⟨hc, -, -, -⟩ := hph
    rcases hbg : env.bgLoad c with _ | _
    · exact ⟨_, Step.bgFail hc hbg⟩
    · exact ⟨_, Step.bgOk hc hbg⟩
  | running c pending active =>
    simp only [phaseInv] at hph
    obtain ⟨hc, hdvd, hbg, hne, hpnd, hand, hdisj, hpc, hac, hlim', hcnt, hperm, hcurp⟩ := hph
    cases active with
    | nil =>
      have hpne : pending ≠ [] := by
        rcases hne with h | h
        · exact h
        · simp at h
      obtain ⟨j, hj⟩ := List.exists_mem_of_ne_nil pending hpne
      exact ⟨_, Step.start hj (by simpa using hlim)⟩
    | cons a rest =>
      exact ⟨_, Step.finish (List.mem_cons_self a rest)⟩
  | postLoop => exact ⟨_, Step.finalize⟩
  | done => exact absurd rfl hnd

/-- A concrete two-task batch whose files share one original name, with the
background always loading and every remote call succeeding. -/
def envDup : BatchEnv :=
  ⟨[⟨"a.jpg"⟩, ⟨"a.jpg"⟩], CHUNK_SIZE, CONCURRENCY_LIMIT,
   fun _ => true, fun _ => .ok "data", "temp/sess"⟩

/-- The completed state of that batch under the schedule that runs task 0
to completion and then task 1. -/
def stDupDone : EngineState :=
  ⟨⟨false, 2, 2, [],
    [.ok "a.jpg" "temp/sess/composited-a.jpg",
     .ok "a.jpg" "temp/sess/composited-a.jpg"]⟩,
   ["temp/sess/composited-a.jpg", "temp/sess/composited-a.jpg"], .done⟩

lemma reachable_stDupDone : Reachable envDup stDupDone := by
  have h1 : Step envDup (initState envDup)
      ⟨⟨true, 2, 0, [], []⟩, [], .running 0 [0, 1] []⟩ :=
    Step.bgOk (by decide) rfl
  have h2 : Step envDup ⟨⟨true, 2, 0, [], []⟩, [], .running 0 [0, 1] []⟩
      ⟨⟨true, 2, 0, ["a.jpg"], []⟩, [], .running 0 [1] [0]⟩ :=
    @Step.start envDup _ _ _ _ _ 0 (by decide) (by decide)
  have h3 : Step envDup ⟨⟨true, 2, 0, ["a.jpg"], []⟩, [], .running 0 [1] [0]⟩
      ⟨⟨true, 2, 1, [], [.ok "a.jpg" "temp/sess/composited-a.jpg"]⟩,
       ["temp/sess/composited-a.jpg"], .running 0 [1] []⟩ :=
    @Step.finish envDup _ _ _ _ _ 0 (by decide)
  have h4 : Step envDup
      ⟨⟨true, 2, 1, [], [.ok "a.jpg" "temp/sess/composited-a.jpg"]⟩,
       ["temp/sess/composited-a.jpg"], .running 0 [1] []⟩
      ⟨⟨true, 2, 1, ["a.jpg"], [.ok "a.jpg" "temp/sess/composited-a.jpg"]⟩,
       ["temp/sess/composited-a.jpg"], .running 0 [] [1]⟩ :=
    @Step.start envDup _ _ _ _ _ 1 (by decide) (by decide)
  have h5 : Step envDup
      ⟨⟨true, 2, 1, ["a.jpg"], [.ok "a.jpg" "temp/sess/composited-a.jpg"]⟩,
       ["temp/sess/composited-a.jpg"], .running 0 [] [1]⟩
      ⟨⟨true, 2, 2, [],
        [.ok "a.jpg" "temp/sess/composited-a.jpg",
         .ok "a.jpg" "temp/sess/composited-a.jpg"]⟩,
       ["temp/sess/composited-a.jpg", "temp/sess/composited-a.jpg"], .postLoop⟩ :=
    @Step.finish envDup _ _ _ _ _ 1 (by decide)
  have h6 : Step envDup
      ⟨⟨true, 2, 2, [],
        [.ok "a.jpg" "temp/sess/composited-a.jpg",
         .ok "a.jpg" "temp/sess/composited-a.jpg"]⟩,
       ["temp/sess/composited-a.jpg", "temp/sess/composited-a.jpg"], .postLoop⟩
      stDupDone :=
    Step.finalize
  exact (((((Relation.ReflTransGen.refl.tail h1).tail h2).tail h3).tail h4).tail h5).tail h6

/-- C5: at every observation point (every event-loop point where a status
query can run, i.e. every reachable state of the dispatcher)
`processedImages` equals the number of recorded results — no
double-counting and no gaps — and for every batch, once processing
completes, `processedImages = totalImages` and
`results.length = totalImages`. -/
theorem processed_equals_results (env : BatchEnv) (hcs : 0 < env.chunkSize)
    (st : EngineState) (hr : Reachable env st) :
    st.session.processedImages = st.session.results.length ∧
    (st.phase = .done →
      st.session.processedImages = st.session.totalImages ∧
      st.session.results.length = st.session.totalImages) := by
  obtain ⟨htot, hcount, hwr, hph⟩ := inv_reachable env hcs hr
  refine ⟨hcount, fun hd => ?_⟩
  obtain ⟨s, w, ph⟩ := st
  dsimp only at hd htot hcount ⊢
  subst hd
  simp only [phaseInv] at hph
  obtain ⟨hperm, -, -⟩ := hph
  have hlen : s.results.length = env.files.length := by
    rw [hperm.length_eq, List.length_map, List.length_range]
  rw [htot]
  exact ⟨by rw [hcount, hlen], hlen⟩

/-- Witness for C5 at the completed concrete batch. -/
theorem processed_equals_results_witness :
    stDupDone.session.processedImages = stDupDone.session.results.length ∧
    (stDupDone.phase = .done →
      stDupDone.session.processedImages = stDupDone.session.totalImages ∧
      stDupDone.session.results.length = stDupDone.session.totalImages) :=
  processed_equals_results envDup (by decide) stDupDone reachable_stDupDone

/-- C6: for every batch, at every observation point, at most `limit`
(the worker width, CONCURRENCY_LIMIT = 3 in the source) tasks are in the
in-flight set, regardless of batch or chunk size; while the chunk starting
at `c` is running, only tasks of that chunk are queued or in flight, its
background loaded successfully, and every task of every earlier chunk
already has a terminal result (`c ≤` the result count, with the exact
bookkeeping `results + pending + active = chunk end`); at the moment the
background of chunk `c` is being loaded, exactly `c` terminal results
exist and nothing is in flight — so chunk k+1 never starts (neither its
background load nor any task) before all of chunk k is terminal; and past
the loop every task has a terminal result. -/
theorem inflight_bound_and_chunk_order (env : BatchEnv) (hcs : 0 < env.chunkSize)
    (st : EngineState) (hr : Reachable env st) :
    st.session.currentImages.length ≤ env.limit ∧
    (∀ c pending active, st.phase = .running c pending active →
      env.bgLoad c = true ∧
      (∀ i ∈ pending, c ≤ i ∧ i < cEnd env c) ∧
      (∀ i ∈ active, c ≤ i ∧ i < cEnd env c) ∧
      c ≤ st.session.results.length ∧
      st.session.results.length + pending.length + active.length = cEnd env c) ∧
    (∀ c, st.phase = .loadBg c →
      st.session.results.length = c ∧ st.session.currentImages = []) ∧
    ((st.phase = .postLoop ∨ st.phase = .done) →
      st.session.results.length = env.files.length) := by
  obtain ⟨htot, hcount, hwr, hph⟩ := inv_reachable env hcs hr
  obtain ⟨s, w, ph⟩ := st
  dsimp only at hph ⊢
  refine ⟨?_, ?_, ?_, ?_⟩
  · cases ph with
    | loadBg c =>
      simp only [phaseInv] at hph
      rw [hph.2.2.2]
      exact Nat.zero_le _
    | running c pending active =>
      simp only [phaseInv] at hph
      obtain ⟨-, -, -, -, -, -, -, -, -, hlim', -, -, hcurp⟩ := hph
      rw [hcurp.length_eq, List.length_map]
      exact hlim'
    | postLoop =>
      simp only [phaseInv] at hph
      rw [hph.2]
      exact Nat.zero_le _
    | done =>
      simp only [phaseInv] at hph
      rw [hph.2.1]
      exact Nat.zero_le _
  · intro c pending active heq
    subst heq
    simp only [phaseInv] at hph
    obtain ⟨hc, hdvd, hbg, hne, hpnd, hand, hdisj, hpc, hac, hlim', hcnt, hperm, hcurp⟩ := hph
    have hlen : s.results.length =
        c + (doneInChunk env c pending active).length := by
      rw [hperm.length_eq, List.length_append, List.length_map, List.length_range,
        List.length_map]
    refine ⟨hbg, ?_, ?_, by omega, hcnt⟩
    · intro i hi
      exact mem_chunkTasks.mp (hpc i hi)
    · intro i hi
      exact mem_chunkTasks.mp (hac i hi)
  · intro c heq
    subst heq
    simp only [phaseInv] at hph
    obtain ⟨-, -, hperm, hcur⟩ := hph
    refine ⟨?_, hcur⟩
    rw [hperm.length_eq, List.length_map, List.length_range]
  · intro heq
    rcases heq with heq | heq <;> subst heq <;> simp only [phaseInv] at hph
    · rw [hph.1.length_eq, List.length_map, List.length_range]
    · rw [hph.1.length_eq, List.length_map, List.length_range]

/-- Witness for C6 at the completed concrete batch, whose limit is the
configured CONCURRENCY_LIMIT. -/
theorem inflight_bound_and_chunk_order_witness :
    stDupDone.session.currentImages.length ≤ envDup.limit :=
  (inflight_bound_and_chunk_order envDup (by decide) stDupDone reachable_stDupDone).1

/-- C4: the failure of any number of individual tasks never aborts a chunk
or the batch: from every observable state the dispatcher can take a step
unless it is done (no deadlock), every step decreases a natural measure
(no divergence: every maximal run ends done), and in every completed run
every submitted task has exactly its own terminal outcome — up to
completion order, the results are precisely the per-task expected outcomes,
so one task's failure leaves all sibling outcomes untouched.  A chunk-level
background load failure is the only whole-chunk degradation: every task of
such a chunk has the same single shared cause "Failed to load background
image" as its expected outcome, and no such task is ever attempted
individually (it contributes no write and its chunk is skipped by the
catch block in one segment). -/
theorem failure_isolation (env : BatchEnv) (hcs : 0 < env.chunkSize)
    (hlim : 0 < env.limit) :
    (∀ st, Reachable env st → st.phase ≠ .done → ∃ st', Step env st st') ∧
    (∀ st st', Step env st st' → engineMeasure env st' < engineMeasure env st) ∧
    (∀ st, Reachable env st → st.phase = .done →
      st.session.results.Perm
        ((List.range env.files.length).map (expectedResult env))) ∧
    (∀ c, env.chunkSize ∣ c → env.bgLoad c = false → ∀ i ∈ chunkTasks env c,
      expectedResult env i = .fail (fname env i) "Failed to load background image") := by
  refine ⟨?_, ?_, ?_, ?_⟩
  · intro st hr hnd
    exact engine_progress env hcs hlim hr hnd
  · intro st st' hstep
    exact engineMeasure_decreases env hcs hstep
  · intro st hr hd
    obtain ⟨-, -, -, hph⟩ := inv_reachable env hcs hr
    obtain ⟨s, w, ph⟩ := st
    dsimp only at hd ⊢
    subst hd
    simp only [phaseInv] at hph
    exact hph.1
  · intro c hdvd hbg i hi
    exact expectedResult_of_mem_bgFail hdvd hi hbg

/-- Witness for C4: the completed concrete batch carries exactly the
expected outcome of each of its tasks. -/
theorem failure_isolation_witness :
    stDupDone.session.results.Perm
      ((List.range envDup.files.length).map (expectedResult envDup)) :=
  (failure_isolation envDup (by decide) (by decide)).2.2.1 stDupDone
    reachable_stDupDone rfl

/-- C10: a successful task persists its output at the derived path
`outputDirectory/composited-(originalName)`; two tasks with the same
original name therefore derive the same output path, the later write
overwriting the earlier file, while both record a success outcome — so the
writes of a run are exactly the saved paths of its success outcomes, and a
completed batch of two same-named successful tasks performs two writes to
one distinct path: the downloadable bundle holds fewer files than there
are success outcomes. -/
theorem duplicate_names_share_output_path (env : BatchEnv) (hcs : 0 < env.chunkSize) :
    (∀ i j, fname env i = fname env j → outPath env i = outPath env j) ∧
    (∀ st, Reachable env st →
      st.writes = st.session.results.filterMap TaskResult.savedTo) ∧
    (∀ st, Reachable env st → st.phase = .done →
      ∀ c, env.chunkSize ∣ c → env.bgLoad c = true → ∀ i ∈ chunkTasks env c,
        (∃ d, env.taskOutcome i = .ok d) →
        TaskResult.ok (fname env i) (outPath env i) ∈ st.session.results) ∧
    (∃ st, Reachable envDup st ∧ st.phase = .done ∧
      (st.session.results.filter (fun r => r.isOk)).length = 2 ∧
      st.writes.dedup.length = 1) := by
  refine ⟨?_, ?_, ?_, ?_⟩
  · intro i j h
    rw [outPath, outPath, h]
  · intro st hr
    exact (inv_reachable env hcs hr).2.2.1
  · intro st hr hd c hdvd hbg i hi hok
    obtain ⟨-, -, -, hph⟩ := inv_reachable env hcs hr
    obtain ⟨s, w, ph⟩ := st
    dsimp only at hd ⊢
    subst hd
    simp only [phaseInv] at hph
    obtain ⟨hperm, -, -⟩ := hph
    refine hperm.mem_iff.mpr ?_
    refine List.mem_map.mpr ⟨i, ?_, ?_⟩
    · refine List.mem_range.mpr ?_
      have h1 := (mem_chunkTasks.mp hi).2
      have h2 := cEnd_le_len env c
      omega
    · obtain ⟨d, hdo⟩ := hok
      rw [expectedResult_of_mem_bgOk hdvd hi hbg, hdo]
  · exact ⟨stDupDone, reachable_stDupDone, rfl, by decide, by decide⟩

/-- Witness for C10: the two same-named tasks of the concrete batch derive
one and the same output path. -/
theorem duplicate_names_share_output_path_witness :
    outPath envDup 0 = outPath envDup 1 :=
  (duplicate_names_share_output_path envDup (by decide)).1 0 1 rfl

end Packshot
